import Mathlib

/-
Verification of the seth contract-ABI encoder and RPC helpers.

The Go source is shallowly embedded: byte slices become `List Nat`
(each element a byte value), strings become their character lists,
`panic` becomes `Option` (a `none` result means the call aborted
before returning any output), and Go's `big.Int` magnitudes become
`Int.natAbs` rendered to big-endian bytes.
-/

set_option maxRecDepth 4000

/-- The closed set of argument values the library can encode
(src/send.go declares the `EtherType` interface implementable only
inside the library, for exactly these five kinds). `addr` carries the
20 bytes of an `Address`, `data` the bytes of a `Data`, and the two
slice constructors the dynamically sized lists. -/
inductive EtherValue where
  | addr (a : List Nat)
  | int (i : Int)
  | data (d : List Nat)
  | addrSlice (l : List (List Nat))
  | intSlice (l : List Int)
deriving DecidableEq

/-- The illegal-character string of src/send.go line 114. -/
def illegal : List Char :=
  [' ', '\t', '\n', Char.ofNat 8, '-', '+', '/', '~', '!', '@', '#', '$',
   '%', '^', '&', '*', '=', '|', ';', ':', '\"', '<', '>', '\\', '?']

/-- Model of Go `strings.ContainsAny`. -/
def containsAny (l chars : List Char) : Bool :=
  l.any (fun c => chars.contains c)

/-- Dynamic type test for `*Address` (the `args[i].(*Address)` assertion). -/
def isAddr : EtherValue → Bool
  | .addr _ => true
  | _ => false

/-- Dynamic type test for `*Int`. -/
def isInt : EtherValue → Bool
  | .int _ => true
  | _ => false

/-- Dynamic type test for `*Data`. -/
def isData : EtherValue → Bool
  | .data _ => true
  | _ => false

/-- Dynamic type test for the `EtherSlice` interface: only the two
slice kinds implement it. -/
def EtherValue.isSlice : EtherValue → Bool
  | .addrSlice _ => true
  | .intSlice _ => true
  | _ => false

/-- The `Len()` method of `EtherSlice` (element count). The scalar
cases are unreachable where this is used. -/
def EtherValue.sliceLen : EtherValue → Nat
  | .addrSlice l => l.length
  | .intSlice l => l.length
  | _ => 0

/-- One iteration of the switch in typecheck (src/send.go lines
139-162): given a declared type string and an argument, `true` means
no panic. -/
def checkArg (t : List Char) (a : EtherValue) : Bool :=
  if t = "address".toList then isAddr a
  else if t = "uint".toList ∨ t = "uint256".toList ∨ t = "int".toList ∨
          t = "int256".toList then isInt a
  else if t = "bytes32".toList then isData a || isInt a
  else if ("[]".toList).isSuffixOf t then a.isSlice
  else true

/-- Model of typecheck (src/send.go lines 120-164). `false` means the
Go function panics. Byte positions are modelled as character
positions (the signatures involved are ASCII). Note the source only
splits and checks the argument list when the parenthesized segment
contains a comma. -/
def typecheck (f : String) (args : List EtherValue) : Bool :=
  let fc := f.toList
  if containsAny fc illegal then false
  else
    match fc.findIdx? (fun c => c = '('), fc.findIdx? (fun c => c = ')') with
    | none, _ => false
    | some _, none => false
    | some lparen, some rparen =>
      if rparen ≠ fc.length - 1 then false
      else
        let inner := (fc.drop (lparen + 1)).take (rparen - (lparen + 1))
        if inner.contains ',' then
          let argstrings := inner.splitOn ','
          if argstrings.length ≠ args.length then false
          else (argstrings.zip args).all (fun p => checkArg p.1 p.2)
        else true

/-- Model of Go `copy(dst, src)` applied to a whole slice `dst`: the
first `min |dst| |src|` bytes are taken from `src`, the rest of `dst`
is kept. -/
def goCopy (dst src : List Nat) : List Nat :=
  src.take (min dst.length src.length) ++ dst.drop (min dst.length src.length)

/-- Fixed-width big-endian bytes of `n` (low `w` bytes), as written by
`binary.BigEndian.PutUint64` for `w = 8`. -/
def beBytes : Nat → Nat → List Nat
  | 0, _ => []
  | w + 1, n => beBytes w (n / 256) ++ [n % 256]

/-- Minimal big-endian byte rendering of a natural number, the model
of `big.Int.Bytes()` (empty for zero). -/
def natBytes (n : Nat) : List Nat :=
  if h : n = 0 then [] else natBytes (n / 256) ++ [n % 256]
termination_by n
decreasing_by exact Nat.div_lt_self (Nat.pos_of_ne_zero h) (by norm_num)

/-- Address.EncodeABI (src/send.go lines 35-39): a zero 32-byte word
whose bytes 12..31 receive the 20 address bytes, appended to `v`. -/
def Address.EncodeABI (a v : List Nat) : List Nat :=
  v ++ (List.replicate 12 0 ++ goCopy (List.replicate 20 0) a)

/-- Int.EncodeABI (src/send.go lines 44-52): the magnitude bytes of
the integer, right-aligned in a zero 32-byte word; a magnitude wider
than 32 bytes panics (`none`). -/
def IntV.EncodeABI (i : Int) (v : List Nat) : Option (List Nat) :=
  let bits := natBytes i.natAbs
  if 32 < bits.length then none
  else some (v ++ (List.replicate (32 - bits.length) 0 ++ bits))

/-- Data.EncodeABI (src/send.go lines 56-63): the data bytes
left-aligned in a zero 32-byte word; more than 32 bytes panics. -/
def Data.EncodeABI (d v : List Nat) : Option (List Nat) :=
  if 32 < d.length then none
  else some (v ++ goCopy (List.replicate 32 0) d)

/-- padint (src/send.go lines 67-71): a 32-byte word holding the
64-bit big-endian value in its last 8 bytes. -/
def padint (i : Nat) (v : List Nat) : List Nat :=
  v ++ (List.replicate 24 0 ++ beBytes 8 i)

/-- AddrSlice.EncodeABI (src/send.go lines 93-98): per-element
encodings concatenated, no length word. -/
def AddrSlice.EncodeABI : List (List Nat) → List Nat → List Nat
  | [], v => v
  | a :: rest, v => AddrSlice.EncodeABI rest (Address.EncodeABI a v)

/-- IntSlice.EncodeABI (src/send.go lines 78-83): per-element
encodings concatenated; any element overflow panics. -/
def IntSlice.EncodeABI : List Int → List Nat → Option (List Nat)
  | [], v => some v
  | i :: rest, v =>
    match IntV.EncodeABI i v with
    | none => none
    | some v1 => IntSlice.EncodeABI rest v1

/-- The EncodeABI virtual dispatch over the five value kinds. -/
def EtherValue.encodeABI : EtherValue → List Nat → Option (List Nat)
  | .addr a, v => some (Address.EncodeABI a v)
  | .int i, v => IntV.EncodeABI i v
  | .data d, v => Data.EncodeABI d v
  | .addrSlice l, v => some (AddrSlice.EncodeABI l v)
  | .intSlice l, v => IntSlice.EncodeABI l v

/-- Modelled from the spec: HashString, the cryptographic hash of the
signature string (a `Hash` is 32 bytes), is defined elsewhere in the
repository and is not under src/. The spec only requires a
process-wide pure function of the exact string, so it is modelled as
an arbitrary fixed pure 32-byte digest. -/
def HashString (s : String) : List Nat :=
  (List.range 32).map
    (fun k => (s.toList.foldl (fun a c => (a * 131 + c.toNat) % 256) (k * 37 + 11)) % 256)

/-- The first loop of ABIEncode (src/send.go lines 176-185): static
arguments are encoded in place, each dynamic argument emits one
offset word holding `dynoff` (which then grows by 32) and is queued
on `dyn`. -/
def staticPass : List EtherValue → List Nat → Nat → List EtherValue →
    Option (List Nat × List EtherValue)
  | [], buf, _, dyn => some (buf, dyn)
  | a :: rest, buf, dynoff, dyn =>
    if a.isSlice then
      staticPass rest (padint dynoff buf) (dynoff + 32) (dyn ++ [a])
    else
      match a.encodeABI buf with
      | none => none
      | some buf1 => staticPass rest buf1 dynoff dyn

/-- The second loop of ABIEncode (src/send.go lines 186-189): per
queued dynamic argument, a length word then its elements. -/
def dynPass : List EtherValue → List Nat → Option (List Nat)
  | [], buf => some buf
  | d :: rest, buf =>
    match d.encodeABI (padint d.sliceLen buf) with
    | none => none
    | some buf1 => dynPass rest buf1

/-- ABIEncode (src/send.go lines 167-191): typecheck, then the 4-byte
selector copied from the hash, then the two passes. `none` models any
panic on the way. -/
def ABIEncode (fn : String) (args : List EtherValue) : Option (List Nat) :=
  if typecheck fn args then
    match staticPass args (goCopy (List.replicate 4 0) ((HashString fn).take 4))
        (args.length * 32) [] with
    | none => none
    | some (buf1, dyn) => dynPass dyn buf1
  else none

/-- Modelled from the spec: the reserved "latest" sentinel constant
(seth.Latest is not under src/; the value is consistent with the
StorageAt switch in src/send.go lines 238-245, which maps -1 to the
latest string). -/
def Latest : Int := -1

/-- Modelled from the spec: the reserved "pending" sentinel constant
(seth.Pending is not under src/; consistent with StorageAt mapping -2
to the pending string). -/
def Pending : Int := -2

/-- Go strconv lower: ASCII lowercasing by setting bit 5. -/
def lowerCh (c : Char) : Char := Char.ofNat (c.toNat ||| 32)

/-- Digit recognition of Go strconv.ParseUint's loop. -/
def digitVal (c : Char) : Option Nat :=
  if '0' ≤ c ∧ c ≤ '9' then some (c.toNat - '0'.toNat)
  else if 'a' ≤ lowerCh c ∧ lowerCh c ≤ 'z' then some ((lowerCh c).toNat - 'a'.toNat + 10)
  else none

/-- The digit-accumulation loop of Go strconv.ParseUint with unbounded
arithmetic: underscores are skipped in base-0 mode (recorded in the
Bool), a digit at or above the base or a value beyond `maxVal` is an
error. -/
def parseDigits (base : Nat) (maxVal : Nat) :
    List Char → Nat → Bool → Option (Nat × Bool)
  | [], n, us => some (n, us)
  | c :: rest, n, us =>
    if c = '_' then parseDigits base maxVal rest n true
    else
      match digitVal c with
      | none => none
      | some d =>
        if base ≤ d then none
        else
          let n1 := n * base + d
          if maxVal < n1 then none
          else parseDigits base maxVal rest n1 us

/-- The scanning loop of Go strconv's underscoreOK: `saw` is the class
of the previous character. -/
def underscoreOKLoop (hex : Bool) : List Char → Char → Bool
  | [], saw => saw ≠ '_'
  | c :: rest, saw =>
    if ('0' ≤ c ∧ c ≤ '9') ∨ (hex ∧ 'a' ≤ lowerCh c ∧ lowerCh c ≤ 'f') then
      underscoreOKLoop hex rest '0'
    else if c = '_' then
      if saw ≠ '0' then false else underscoreOKLoop hex rest '_'
    else if saw = '_' then false
    else underscoreOKLoop hex rest '!'

/-- Go strconv's underscoreOK: underscores may only stand between
digits or after a base prefix. -/
def underscoreOK (s : List Char) : Bool :=
  let s1 := match s with
            | c :: rest => if c = '-' ∨ c = '+' then rest else s
            | [] => s
  match s1 with
  | c0 :: c1 :: rest =>
    if c0 = '0' ∧ (lowerCh c1 = 'b' ∨ lowerCh c1 = 'o' ∨ lowerCh c1 = 'x') then
      underscoreOKLoop (lowerCh c1 = 'x') rest '0'
    else underscoreOKLoop false s1 '^'
  | _ => underscoreOKLoop false s1 '^'

/-- Go strconv.ParseUint with base 0 and bitSize 64: base-prefix
detection (0b/0o/0x, legacy leading-0 octal, else decimal), then the
digit loop, then the underscore-placement check. -/
def ParseUint0 (s : List Char) : Option Nat :=
  match s with
  | [] => none
  | c0 :: tail =>
    let p : Nat × List Char :=
      if c0 = '0' then
        match tail with
        | c1 :: rest =>
          if rest ≠ [] ∧ lowerCh c1 = 'b' then (2, rest)
          else if rest ≠ [] ∧ lowerCh c1 = 'o' then (8, rest)
          else if rest ≠ [] ∧ lowerCh c1 = 'x' then (16, rest)
          else (8, tail)
        | [] => (8, [])
      else (10, c0 :: tail)
    match parseDigits p.1 (2 ^ 64 - 1) p.2 0 false with
    | none => none
    | some q => if q.2 ∧ ¬ underscoreOK s then none else some q.1

/-- Go strconv.ParseInt with base 0 and bitSize 64: optional sign,
unsigned parse, signed-range check. Any error is `none`. -/
def ParseInt0 (s : List Char) : Option Int :=
  match s with
  | [] => none
  | c :: rest =>
    let neg : Bool := c = '-'
    let s1 := if c = '+' ∨ c = '-' then rest else c :: rest
    match ParseUint0 s1 with
    | none => none
    | some un =>
      if neg = false ∧ 2 ^ 63 ≤ un then none
      else if neg = true ∧ 2 ^ 63 < un then none
      else if neg then some (-(un : Int)) else some (un : Int)

/-- blocknum (src/unnamed/part_000 lines 41-56): the three symbolic
tokens, else strconv.ParseInt(s, 0, 64); a parse error is fatal
(`none`). -/
def blocknum (s : String) : Option Int :=
  if s = "earliest" then some 0
  else if s = "latest" then some Latest
  else if s = "pending" then some Pending
  else ParseInt0 s.toList

/-- The shape of a serialized JSON-RPC parameter, as far as the claims
need it: a JSON string literal or a JSON number. -/
inductive JsonVal where
  | str (s : String)
  | num (n : Int)
deriving DecidableEq

/-- The block-parameter serialization switch of Client.StorageAt
(src/send.go lines 238-245): -2 becomes the raw string "pending", -1
the raw string "latest", anything else is json.Marshal of the int64,
a JSON number. -/
def storageAtBlockParam (block : Int) : JsonVal :=
  if block = -2 then JsonVal.str "pending"
  else if block = -1 then JsonVal.str "latest"
  else JsonVal.num block

/-- The concrete ABIEncode output examined for the dynamic-offset
claim: a one-element address slice followed by an empty address
slice. -/
def c1out : List Nat :=
  (ABIEncode "f(address[],address[])"
    [EtherValue.addrSlice [List.replicate 19 0 ++ [7]], EtherValue.addrSlice []]).getD []

theorem goCopy_length (dst src : List Nat) : (goCopy dst src).length = dst.length := by
  simp [goCopy]

theorem beBytes_length (w n : Nat) : (beBytes w n).length = w := by
  induction w generalizing n with
  | zero => simp [beBytes]
  | succ w ih => simp [beBytes, ih]

theorem HashString_length (s : String) : (HashString s).length = 32 := by
  simp [HashString]

theorem padint_append (i : Nat) (v : List Nat) :
    ∃ t, padint i v = v ++ t ∧ t.length = 32 := by
  refine ⟨_, rfl, ?_⟩
  simp [beBytes_length]

theorem natBytes_len_gt (k : Nat) : ∀ n, 256 ^ k ≤ n → k < (natBytes n).length := by
  induction k with
  | zero =>
    intro n hn
    rw [natBytes]
    have h0 : ¬ n = 0 := by omega
    simp [h0]
  | succ k ih =>
    intro n hn
    have hp : 0 < 256 ^ (k + 1) := Nat.pos_pow_of_pos _ (by norm_num)
    have h0 : ¬ n = 0 := by omega
    rw [natBytes]
    simp only [h0, dite_false]
    have hdiv : 256 ^ k ≤ n / 256 := by
      rw [Nat.le_div_iff_mul_le (by norm_num)]
      calc 256 ^ k * 256 = 256 ^ (k + 1) := by rw [pow_succ]
        _ ≤ n := hn
    have := ih (n / 256) hdiv
    simp only [List.length_append, List.length_cons, List.length_nil]
    omega

theorem addressEncode_append (a v : List Nat) :
    ∃ t, Address.EncodeABI a v = v ++ t ∧ t.length = 32 := by
  refine ⟨_, rfl, ?_⟩
  simp [goCopy_length]

theorem intEncode_append (i : Int) (v w : List Nat) (h : IntV.EncodeABI i v = some w) :
    ∃ t, w = v ++ t ∧ t.length = 32 := by
  unfold IntV.EncodeABI at h
  by_cases hl : 32 < (natBytes i.natAbs).length
  · simp [hl] at h
  · simp only [hl, if_false] at h
    refine ⟨_, (Option.some.inj h).symm, ?_⟩
    simp only [List.length_append, List.length_replicate]
    omega

theorem dataEncode_append (d v w : List Nat) (h : Data.EncodeABI d v = some w) :
    ∃ t, w = v ++ t ∧ t.length = 32 := by
  unfold Data.EncodeABI at h
  by_cases hl : 32 < d.length
  · simp [hl] at h
  · simp only [hl, if_false] at h
    exact ⟨_, (Option.some.inj h).symm, goCopy_length _ _⟩

theorem addrSliceEncode_append (l : List (List Nat)) :
    ∀ v, ∃ t, AddrSlice.EncodeABI l v = v ++ t ∧ t.length % 32 = 0 := by
  induction l with
  | nil => exact fun v => ⟨[], by simp [AddrSlice.EncodeABI], by simp⟩
  | cons a rest ih =>
    intro v
    obtain ⟨t, ht, hlt⟩ := ih (Address.EncodeABI a v)
    obtain ⟨u, hu, hlu⟩ := addressEncode_append a v
    refine ⟨u ++ t, ?_, ?_⟩
    · rw [AddrSlice.EncodeABI, ht, hu, List.append_assoc]
    · simp only [List.length_append]
      omega

theorem intSliceEncode_append (l : List Int) :
    ∀ v w, IntSlice.EncodeABI l v = some w → ∃ t, w = v ++ t ∧ t.length % 32 = 0 := by
  induction l with
  | nil =>
    intro v w h
    simp only [IntSlice.EncodeABI, Option.some.injEq] at h
    exact ⟨[], by simp [h], by simp⟩
  | cons i rest ih =>
    intro v w h
    unfold IntSlice.EncodeABI at h
    cases he : IntV.EncodeABI i v with
    | none => rw [he] at h; cases h
    | some v1 =>
      rw [he] at h
      obtain ⟨t, ht, hlt⟩ := ih v1 w h
      obtain ⟨u, hu, hlu⟩ := intEncode_append i v v1 he
      refine ⟨u ++ t, ?_, ?_⟩
      · rw [ht, hu, List.append_assoc]
      · simp only [List.length_append]
        omega

theorem etherEncode_append (a : EtherValue) (v w : List Nat)
    (h : a.encodeABI v = some w) : ∃ t, w = v ++ t ∧ t.length % 32 = 0 := by
  cases a with
  | addr x =>
    obtain ⟨t, ht, hlt⟩ := addressEncode_append x v
    refine ⟨t, ?_, by omega⟩
    simpa [EtherValue.encodeABI, ht] using h.symm
  | int i =>
    obtain ⟨t, ht, hlt⟩ := intEncode_append i v w h
    exact ⟨t, ht, by omega⟩
  | data d =>
    obtain ⟨t, ht, hlt⟩ := dataEncode_append d v w h
    exact ⟨t, ht, by omega⟩
  | addrSlice l =>
    obtain ⟨t, ht, hlt⟩ := addrSliceEncode_append l v
    refine ⟨t, ?_, hlt⟩
    simpa [EtherValue.encodeABI, ht] using h.symm
  | intSlice l => exact intSliceEncode_append l v w h

theorem staticPass_append (args : List EtherValue) :
    ∀ buf off dyn buf1 dyn1, staticPass args buf off dyn = some (buf1, dyn1) →
      ∃ t, buf1 = buf ++ t ∧ t.length % 32 = 0 := by
  induction args with
  | nil =>
    intro buf off dyn buf1 dyn1 h
    simp only [staticPass, Option.some.injEq, Prod.mk.injEq] at h
    exact ⟨[], by simp [h.1], by simp⟩
  | cons a rest ih =>
    intro buf off dyn buf1 dyn1 h
    unfold staticPass at h
    cases hs : a.isSlice with
    | true =>
      rw [hs, if_pos rfl] at h
      obtain ⟨t, ht, hlt⟩ := ih _ _ _ _ _ h
      obtain ⟨u, hu, hlu⟩ := padint_append off buf
      refine ⟨u ++ t, ?_, ?_⟩
      · rw [ht, hu, List.append_assoc]
      · simp only [List.length_append]
        omega
    | false =>
      rw [hs, if_neg Bool.false_ne_true] at h
      cases he : a.encodeABI buf with
      | none => rw [he] at h; cases h
      | some bufe =>
        rw [he] at h
        obtain ⟨t, ht, hlt⟩ := ih _ _ _ _ _ h
        obtain ⟨u, hu, hlu⟩ := etherEncode_append a buf bufe he
        refine ⟨u ++ t, ?_, ?_⟩
        · rw [ht, hu, List.append_assoc]
        · simp only [List.length_append]
          omega

theorem dynPass_append (dyn : List EtherValue) :
    ∀ buf out, dynPass dyn buf = some out → ∃ t, out = buf ++ t ∧ t.length % 32 = 0 := by
  induction dyn with
  | nil =>
    intro buf out h
    simp only [dynPass, Option.some.injEq] at h
    exact ⟨[], by simp [h], by simp⟩
  | cons d rest ih =>
    intro buf out h
    unfold dynPass at h
    cases he : d.encodeABI (padint d.sliceLen buf) with
    | none => rw [he] at h; cases h
    | some buf1 =>
      rw [he] at h
      obtain ⟨t, ht, hlt⟩ := ih buf1 out h
      obtain ⟨u, hu, hlu⟩ := etherEncode_append _ _ _ he
      obtain ⟨p, hp, hlp⟩ := padint_append d.sliceLen buf
      refine ⟨p ++ (u ++ t), ?_, ?_⟩
      · rw [ht, hu, hp, List.append_assoc, List.append_assoc]
      · simp only [List.length_append]
        omega

theorem ABIEncode_selector_prefix (fn : String) (args : List EtherValue) (out : List Nat)
    (h : ABIEncode fn args = some out) :
    ∃ t, out = (HashString fn).take 4 ++ t ∧ t.length % 32 = 0 := by
  have h4 : ((HashString fn).take 4).length = 4 := by
    simp [HashString_length]
  have hb : goCopy (List.replicate 4 0) ((HashString fn).take 4) = (HashString fn).take 4 := by
    unfold goCopy
    rw [List.length_replicate, h4, min_self, List.drop_replicate, List.take_take]
    simp
  unfold ABIEncode at h
  cases htc : typecheck fn args with
  | false => rw [htc] at h; cases h
  | true =>
    rw [htc] at h
    simp only [if_true] at h
    cases hsp : staticPass args (goCopy (List.replicate 4 0) ((HashString fn).take 4))
        (args.length * 32) [] with
    | none => rw [hsp] at h; cases h
    | some pr =>
      rw [hsp] at h
      obtain ⟨t1, ht1, hlt1⟩ := staticPass_append args _ _ _ pr.1 pr.2 (by rw [hsp])
      obtain ⟨t2, ht2, hlt2⟩ := dynPass_append pr.2 pr.1 out h
      refine ⟨t1 ++ t2, ?_, ?_⟩
      · rw [ht2, ht1, hb, List.append_assoc]
      · simp only [List.length_append]
        omega

/-- C1: the code violates the claim. For the signature
f(address[],address[]) applied to a one-element address slice (last
byte 7) followed by an empty address slice, the encoder emits a
static area of two offset words with values 64 and 96, but the second
dynamic argument's encoded content (its length word, all zero) in
fact begins at byte offset 128 after the selector: byte offset 96
holds the first slice's element word instead. The offset loop adds
only 32 per dynamic argument and never accounts for element words. -/
theorem claim_C1_offset_bug :
    (ABIEncode "f(address[],address[])"
      [EtherValue.addrSlice [List.replicate 19 0 ++ [7]],
       EtherValue.addrSlice []]).isSome = true ∧
    c1out.length = 164 ∧
    (c1out.drop 4).take 32 = List.replicate 31 0 ++ [64] ∧
    (c1out.drop 36).take 32 = List.replicate 31 0 ++ [96] ∧
    (c1out.drop 68).take 32 = List.replicate 31 0 ++ [1] ∧
    (c1out.drop 100).take 32 = List.replicate 31 0 ++ [7] ∧
    (c1out.drop 132).take 32 = List.replicate 32 0 := by
  decide

/-- C2 counterexample: the claim says typecheck rejects foo(address)
given an Int argument, but the code accepts it (the parenthesized
segment has no comma, so no per-argument check runs). -/
theorem claim_C2_counterexample :
    typecheck "foo(address)" [EtherValue.int 5] = true := by
  decide

/-- C2 amended: typecheck rejects a call to foo(address,uint256) with
only one argument supplied, but accepts foo(address) with an Int
argument, because arity and per-argument checks only run when the
parameter segment contains a comma. -/
theorem claim_C2_amended_thm :
    typecheck "foo(address,uint256)" [EtherValue.addr (List.replicate 20 0)] = false ∧
    typecheck "foo(address)" [EtherValue.int 5] = true := by
  decide

/-- C3 counterexample: the claim says any signature with more than one
left paren is rejected, but the signature f((a) holds two left parens,
ends in a right paren, and typecheck accepts it. -/
theorem claim_C3_counterexample :
    typecheck "f((a)" [] = true ∧
    "f((a)".toList.count '(' = 2 ∧
    "f((a)".toList.getLast? = some ')' := by
  decide

/-- C3 amended: typecheck signals a malformed-signature error for
every signature containing no left paren at all, and for every
signature whose first right paren is not its final character; it does
not require the left paren to be unique. -/
theorem claim_C3_amended_rejects (f : String) (args : List EtherValue)
    (h : f.toList.findIdx? (fun c => c = '(') = none ∨
         f.toList.findIdx? (fun c => c = ')') ≠ some (f.toList.length - 1)) :
    typecheck f args = false := by
  dsimp only [typecheck]
  cases hc : containsAny f.toList illegal with
  | true => rw [if_pos rfl]
  | false =>
    rw [if_neg Bool.false_ne_true]
    rcases h with h | h
    · rw [h]
    · cases h1 : f.toList.findIdx? (fun c => c = '(') with
      | none => rfl
      | some lp =>
        cases h2 : f.toList.findIdx? (fun c => c = ')') with
        | none => rfl
        | some rp =>
          have hne : rp ≠ f.toList.length - 1 := fun he => h (by rw [h2, he])
          dsimp only
          rw [if_pos hne]

/-- C3 witness: a signature with no left paren is rejected. -/
theorem claim_C3_amended_witness : typecheck "foo" [] = false :=
  claim_C3_amended_rejects "foo" [] (Or.inl (by decide))

/-- C4: an Int whose magnitude needs more than 32 bytes, and a Data
value longer than 32 bytes, both abort the encoder with no output. -/
theorem claim_C4_overflow_aborts (i : Int) (d v w : List Nat)
    (hi : 256 ^ 32 ≤ i.natAbs) (hd : 32 < d.length) :
    IntV.EncodeABI i v = none ∧ Data.EncodeABI d w = none := by
  constructor
  · have hgt : 32 < (natBytes i.natAbs).length := natBytes_len_gt 32 i.natAbs hi
    unfold IntV.EncodeABI
    simp only [hgt, if_true]
  · unfold Data.EncodeABI
    simp only [hd, if_true]

/-- C4 witness: the 33-byte-magnitude integer 2^256 and a 33-byte data
value are both rejected. -/
theorem claim_C4_witness :
    IntV.EncodeABI ((2 : Int) ^ 256) [] = none ∧
    Data.EncodeABI (List.replicate 33 0) [] = none :=
  claim_C4_overflow_aborts ((2 : Int) ^ 256) (List.replicate 33 0) [] []
    (by norm_num) (by simp)

/-- C5: whenever ABIEncode returns output for a well-typechecked call,
the output length is 4 selector bytes plus a whole number of 32-byte
words. -/
theorem claim_C5_word_alignment (fn : String) (args : List EtherValue) (out : List Nat)
    (htc : typecheck fn args = true) (h : ABIEncode fn args = some out) :
    ∃ k, out.length = 4 + 32 * k := by
  obtain ⟨t, ht, hlt⟩ := ABIEncode_selector_prefix fn args out h
  have h4 : ((HashString fn).take 4).length = 4 := by
    simp [HashString_length]
  refine ⟨t.length / 32, ?_⟩
  rw [ht]
  simp only [List.length_append, h4]
  omega

/-- C5 witness: the zero-argument call encodes to the 4 selector bytes
alone, length 4 + 32 * 0. -/
theorem claim_C5_witness :
    ∃ k, ((HashString "f()").take 4).length = 4 + 32 * k :=
  claim_C5_word_alignment "f()" [] ((HashString "f()").take 4) (by decide) (by decide)

/-- C6: an Address of 20 bytes encodes as 12 zero bytes followed by
its 20 bytes, and a Data value of at most 32 bytes encodes as its
bytes followed by zero padding up to 32. -/
theorem claim_C6_scalar_padding (a d v w : List Nat) (ha : a.length = 20) (hd : d.length ≤ 32) :
    Address.EncodeABI a v = v ++ (List.replicate 12 0 ++ a) ∧
    Data.EncodeABI d w = some (w ++ (d ++ List.replicate (32 - d.length) 0)) := by
  constructor
  · unfold Address.EncodeABI goCopy
    rw [List.length_replicate, ha, min_self, ← ha, List.take_length, ha, List.drop_replicate]
    simp
  · unfold Data.EncodeABI
    rw [if_neg (by omega)]
    unfold goCopy
    rw [List.length_replicate, min_eq_right hd, List.take_length, List.drop_replicate]

/-- C6 witness: a concrete 20-byte address and a 2-byte data value. -/
theorem claim_C6_witness :
    Address.EncodeABI (List.replicate 20 3) [] =
      [] ++ (List.replicate 12 0 ++ List.replicate 20 3) ∧
    Data.EncodeABI [1, 2] [] =
      some ([] ++ ([1, 2] ++ List.replicate (32 - [1, 2].length) 0)) :=
  claim_C6_scalar_padding (List.replicate 20 3) [1, 2] [] [] (by simp) (by simp)

/-- C7: whatever ABIEncode returns starts with the first 4 bytes of
the hash of the exact signature string, and with an empty argument
list the output is exactly those 4 selector bytes. -/
theorem claim_C7_selector (fn : String) (args : List EtherValue) (out : List Nat)
    (h : ABIEncode fn args = some out) :
    out.take 4 = (HashString fn).take 4 ∧
    (args = [] → out = (HashString fn).take 4) := by
  have h4 : ((HashString fn).take 4).length = 4 := by
    simp [HashString_length]
  constructor
  · obtain ⟨t, ht, _⟩ := ABIEncode_selector_prefix fn args out h
    rw [ht, List.take_append_eq_append_take, h4, Nat.sub_self, List.take_zero,
      List.append_nil, List.take_take]
    simp
  · intro ha
    subst ha
    obtain ⟨t, ht, _⟩ := ABIEncode_selector_prefix fn [] out h
    unfold ABIEncode at h
    cases htc : typecheck fn [] with
    | false => rw [htc] at h; cases h
    | true =>
      rw [htc] at h
      simp only [if_true, staticPass, dynPass, Option.some.injEq] at h
      rw [← h]
      unfold goCopy
      rw [List.length_replicate, h4, min_self, List.drop_replicate, List.take_take]
      simp

/-- C7 witness: the zero-argument call at a concrete signature. -/
theorem claim_C7_witness :
    ((HashString "f()").take 4).take 4 = (HashString "f()").take 4 ∧
    (([] : List EtherValue) = [] →
      (HashString "f()").take 4 = (HashString "f()").take 4) :=
  claim_C7_selector "f()" [] ((HashString "f()").take 4) (by decide)

/-- C8: blocknum maps earliest to 0, latest and pending to their
sentinels, parses base-prefixed integers (decimal and 0x hex), and
fails fatally on an unparseable token. -/
theorem claim_C8_blocknum_resolution :
    blocknum "earliest" = some 0 ∧
    blocknum "latest" = some Latest ∧
    blocknum "pending" = some Pending ∧
    blocknum "0x10" = some 16 ∧
    blocknum "12" = some 12 ∧
    blocknum "bogus" = none := by
  decide

/-- C9: StorageAt serializes the pending sentinel as the JSON string
"pending" and the latest sentinel as the JSON string "latest", never
as a number, and serializes every non-sentinel block value as a JSON
number. -/
theorem claim_C9_block_serialization (b : Int) (h1 : b ≠ Pending) (h2 : b ≠ Latest) :
    storageAtBlockParam Pending = JsonVal.str "pending" ∧
    storageAtBlockParam Latest = JsonVal.str "latest" ∧
    (∀ n : Int, storageAtBlockParam Pending ≠ JsonVal.num n) ∧
    storageAtBlockParam b = JsonVal.num b := by
  simp only [Pending, Latest] at h1 h2 ⊢
  refine ⟨by norm_num [storageAtBlockParam], by norm_num [storageAtBlockParam], ?_, ?_⟩
  · intro n
    simp [storageAtBlockParam]
  · simp [storageAtBlockParam, h1, h2]

/-- C9 witness: the sentinels and block number 7. -/
theorem claim_C9_witness :
    storageAtBlockParam Pending = JsonVal.str "pending" ∧
    storageAtBlockParam Latest = JsonVal.str "latest" ∧
    (∀ n : Int, storageAtBlockParam Pending ≠ JsonVal.num n) ∧
    storageAtBlockParam 7 = JsonVal.num 7 :=
  claim_C9_block_serialization 7 (by decide) (by decide)

/-- C10: for a signature with no comma in its parenthesized segment
that passes the illegal-character and parenthesis checks, typecheck
accepts any argument list of any length and any kinds. -/
theorem claim_C10_no_comma_unchecked (f : String) (args : List EtherValue) (lp : Nat)
    (h1 : containsAny f.toList illegal = false)
    (h2 : f.toList.findIdx? (fun c => c = '(') = some lp)
    (h3 : f.toList.findIdx? (fun c => c = ')') = some (f.toList.length - 1))
    (h4 : ((f.toList.drop (lp + 1)).take (f.toList.length - 1 - (lp + 1))).contains ','
          = false) :
    typecheck f args = true := by
  dsimp only [typecheck]
  rw [h1, if_neg Bool.false_ne_true, h2, h3]
  dsimp only
  rw [if_neg (fun hc => hc rfl), h4, if_neg Bool.false_ne_true]

/-- C10 witness: foo(address) accepts three arguments none of which is
an address. -/
theorem claim_C10_witness :
    typecheck "foo(address)"
      [EtherValue.int 0, EtherValue.int 1, EtherValue.data []] = true :=
  claim_C10_no_comma_unchecked "foo(address)"
    [EtherValue.int 0, EtherValue.int 1, EtherValue.data []] 3
    (by decide) (by decide) (by decide) (by decide)
